import Mathlib

/-!
Shallow embedding of the ENR (Ethereum Node Record) implementation in
`src/enr/enr.ts`, together with the pieces of its runtime environment that
the code relies on (the `rlp` codec library, `String.prototype.localeCompare`,
JS `Map` semantics, the `multiaddr` library surface that the code touches).

Representation choices, documented once here:
* Byte buffers (`Buffer`) are `List Nat`; every byte produced by the code is
  `< 256` but the embedding does not bake that in — it is irrelevant to the
  operations modelled (bytes are moved, compared and concatenated opaquely).
* JS strings that are used as ENR keys are represented by their byte
  sequences (`List Nat`); `strBytes` maps a Lean string literal to that
  representation.  For the ASCII keys ENR uses ("id", "ip", "udp", ...) the
  UTF-8 bytes coincide with the code points, which is what `strBytes`
  computes.
* The JS `Map` that `ENR` extends is an insertion-ordered association list
  with unique keys; `mapGet` / `mapSet` model `Map.get` / `Map.set`
  (update-in-place keeps the original position, new keys append).
* Sequence numbers (`bigint`) are `Nat`.  `encode` converts the sequence
  number with `Number(this.seq)` before RLP-encoding it; the conversion is
  exact for values below `2 ^ 53`, and theorems that depend on it carry that
  bound as a hypothesis.
* Code that throws is modelled in `Except String`; mutating methods return
  the new state explicitly, and `encode` returns the post-call state even on
  failure (a JS exception does not roll back the mutation made by `sign`).
-/

namespace Discv5

/-- Minimal big-endian byte representation of a natural number, fuel-indexed
so that it is structurally recursive (fuel `n` suffices for value `n`). -/
def beBytesAux : Nat → Nat → List Nat
  | 0, _ => []
  | _ + 1, 0 => []
  | fuel + 1, n + 1 => beBytesAux fuel ((n + 1) / 256) ++ [(n + 1) % 256]

/-- Minimal big-endian byte representation of a natural number
(zero encodes as the empty string), as used by the `rlp` library for
integers and by `encodeLength` for long length headers. -/
def beBytes (n : Nat) : List Nat := beBytesAux n n

/-- Big-endian value of a byte string; models `toBigIntBE` from the
`bigint-buffer` library (an empty buffer yields 0). -/
def beVal (bs : List Nat) : Nat := bs.foldl (fun a b => a * 256 + b) 0

/-- Byte representation of an ASCII string (code points = UTF-8 bytes for
the ASCII keys ENR uses). -/
def strBytes (s : String) : List Nat := s.data.map (fun c => c.toNat)

/-! ### The `rlp` library (dependency of `enr.ts`) -/

/-- `encodeLength` from the `rlp` library: length header for payload length
`len` with offset `offset` (128 for strings, 192 for lists). -/
def encodeLength (len offset : Nat) : List Nat :=
  if len < 56 then [len + offset]
  else ((beBytes len).length + offset + 55) :: beBytes len

/-- RLP encoding of a single byte string. -/
def rlpEncodeStr (s : List Nat) : List Nat :=
  match s with
  | [b] => if b < 128 then s else encodeLength 1 128 ++ s
  | _ => encodeLength s.length 128 ++ s

/-- Concatenated RLP encodings of a list of byte strings (the payload of the
encoding of the list). -/
def rlpPayload (items : List (List Nat)) : List Nat :=
  (items.map rlpEncodeStr).flatten

/-- RLP encoding of a list of byte strings, as `RLP.encode` produces for the
ENR content array (whose elements are buffers, after the library converts
the sequence number to its minimal big-endian bytes and keys to their
UTF-8 bytes). -/
def rlpEncodeStrList (items : List (List Nat)) : List Nat :=
  encodeLength (rlpPayload items).length 192 ++ rlpPayload items

/-- Decoded RLP value: a byte string or a list of values. -/
inductive RLPVal where
  | str : List Nat → RLPVal
  | list : List RLPVal → RLPVal

mutual

/-- One step of RLP decoding: parse a single item from the front of the
buffer, returning it with the unconsumed remainder.  Fuel-indexed for
structural recursion; every caller supplies enough fuel. -/
def rlpDecodeOne : Nat → List Nat → Except String (RLPVal × List Nat)
  | 0, _ => .error "out of fuel"
  | _ + 1, [] => .error "invalid RLP: empty input"
  | fuel + 1, b :: rest =>
    if b < 128 then .ok (.str [b], rest)
    else if b < 184 then
      let len := b - 128
      if rest.length < len then .error "invalid RLP: too short"
      else .ok (.str (rest.take len), rest.drop len)
    else if b < 192 then
      let ll := b - 183
      if rest.length < ll then .error "invalid RLP: too short"
      else
        let len := beVal (rest.take ll)
        let rest2 := rest.drop ll
        if rest2.length < len then .error "invalid RLP: too short"
        else .ok (.str (rest2.take len), rest2.drop len)
    else if b < 248 then
      let len := b - 192
      if rest.length < len then .error "invalid RLP: too short"
      else
        match rlpDecodeMany fuel (rest.take len) with
        | .ok vs => .ok (.list vs, rest.drop len)
        | .error e => .error e
    else
      let ll := b - 247
      if rest.length < ll then .error "invalid RLP: too short"
      else
        let len := beVal (rest.take ll)
        let rest2 := rest.drop ll
        if rest2.length < len then .error "invalid RLP: too short"
        else
          match rlpDecodeMany fuel (rest2.take len) with
          | .ok vs => .ok (.list vs, rest2.drop len)
          | .error e => .error e

/-- Decode a sequence of RLP items until the buffer is exhausted (the body
of a list payload). -/
def rlpDecodeMany : Nat → List Nat → Except String (List RLPVal)
  | 0, _ => .error "out of fuel"
  | _ + 1, [] => .ok []
  | fuel + 1, b :: rest =>
    match rlpDecodeOne fuel (b :: rest) with
    | .ok (v, rem) =>
      match rlpDecodeMany fuel rem with
      | .ok vs => .ok (v :: vs)
      | .error e => .error e
    | .error e => .error e
end

/-- `RLP.decode`: decode one value and reject leftover bytes ("invalid
remainder"), as the `rlp` library does. -/
def rlpDecode (bytes : List Nat) : Except String RLPVal :=
  match rlpDecodeOne (bytes.length + 1) bytes with
  | .ok (v, []) => .ok v
  | .ok (_, _ :: _) => .error "invalid remainder"
  | .error e => .error e

/-! ### `String.prototype.localeCompare` and the key sort used by `encode`

`encode` sorts the record's keys with `(a, b) => a.localeCompare(b)`.
`localeCompare` is *locale-aware* collation; the model below captures the
default Node.js behaviour (ICU root collation) on the ASCII alphanumeric
strings relevant here: letters are compared case-insensitively at the
primary level (so a < B because a < b), and only when all primary weights
agree does case decide, with lowercase ordered before uppercase. -/

/-- Collation weights of one ASCII code point under root collation:
primary weight (case-folded code point) and tertiary weight (0 for
lowercase and non-letters, 1 for uppercase). -/
def charKey (b : Nat) : Nat × Nat :=
  if 65 ≤ b ∧ b ≤ 90 then (b + 32, 1) else (b, 0)

/-- Strict lexicographic order on lists of naturals (a proper prefix is
smaller). -/
def natListLt : List Nat → List Nat → Bool
  | [], [] => false
  | [], _ :: _ => true
  | _ :: _, [] => false
  | x :: xs, y :: ys =>
    if x < y then true else if y < x then false else natListLt xs ys

/-- Primary (case-folded) weight string of a key. -/
def primaryW (k : List Nat) : List Nat := k.map (fun b => (charKey b).1)

/-- Tertiary (case) weight string of a key. -/
def caseW (k : List Nat) : List Nat := k.map (fun b => (charKey b).2)

/-- `a.localeCompare(b) < 0` under the root collation model: primary
weights decide first, case breaks full-primary ties. -/
def localeLt (a b : List Nat) : Bool :=
  if primaryW a = primaryW b then natListLt (caseW a) (caseW b)
  else natListLt (primaryW a) (primaryW b)

/-- `a.localeCompare(b) ≤ 0`. -/
def localeLe (a b : List Nat) : Bool := !localeLt b a

/-- Insert a key into a list sorted by `localeLe`. -/
def orderedInsert (k : List Nat) : List (List Nat) → List (List Nat)
  | [] => [k]
  | x :: xs => if localeLe k x then k :: x :: xs else x :: orderedInsert k xs

/-- The key sort performed by `encode`:
`Array.from(this.keys()).sort((a, b) => a.localeCompare(b))`.
JS `Array.prototype.sort` with a consistent comparator returns the list
sorted by that comparator; insertion sort realises it. -/
def sortKeys : List (List Nat) → List (List Nat)
  | [] => []
  | k :: ks => orderedInsert k (sortKeys ks)

/-- Byte-wise lexicographic order on keys (what the spec requires the
encode-time comparison to agree with). -/
def byteLexLt (a b : List Nat) : Bool := natListLt a b

/-! ### The `v4` identity scheme (`src/enr/v4.ts` is not part of the
source fragment; modelled from the spec) -/

namespace v4

/-- Modelled from the spec: `src/enr/v4.ts` is missing from the fragment.
The spec requires a public key derivable from a private key such that
`verify(publicKeyOf(priv), msg, sign(priv, msg)) = true`; the model uses an
injective tagging of the private key (real code: secp256k1 public key,
leading byte 4 in uncompressed form). -/
def publicKeyOf (privateKey : List Nat) : List Nat := 4 :: privateKey

/-- Modelled from the spec: `v4.sign(privateKey, message)` produces a
signature that `verify` accepts for the matching public key; the model
makes the signature determine the signer and message. -/
def sign (privateKey message : List Nat) : List Nat :=
  privateKey.length :: (privateKey ++ message)

/-- Modelled from the spec: `v4.verify(publicKey, message, signature)`
returns a boolean and never throws; false on malformed input. -/
def verify (publicKey message signature : List Nat) : Bool :=
  match publicKey with
  | 4 :: priv => signature == sign priv message
  | _ => false

/-- Modelled from the spec: `v4.nodeId(publicKey)` is a deterministic map
from the public key to a 32-byte identifier (real code: keccak-256 of the
uncompressed key). -/
def nodeId (publicKey : List Nat) : List Nat :=
  (publicKey ++ List.replicate 32 0).take 32

end v4

/-! ### Constants (`src/enr/constants.ts` is not part of the source
fragment; modelled from the spec) -/

/-- Modelled from the spec: the serialized form must not reach 300 bytes. -/
def MAX_RECORD_SIZE : Nat := 300

/-- Modelled from the spec: error for an unknown identity-scheme tag
(`constants.ts` is missing; the value of the message is immaterial). -/
def ERR_INVALID_ID : String := "id not supported"

/-- Modelled from the spec: error for `encode()` without a private key on a
record whose signature is absent. -/
def ERR_NO_SIGNATURE : String := "no signature to encode"

/-! ### JS `Map` semantics -/

/-- `Map.prototype.get`: first (unique) binding of the key, if any. -/
def mapGet (es : List (List Nat × List Nat)) (k : List Nat) : Option (List Nat) :=
  match es with
  | [] => none
  | (k', v') :: rest => if k' = k then some v' else mapGet rest k

/-- `Map.prototype.set`: update an existing binding in place (keeping its
position) or append a new one. -/
def mapSet (es : List (List Nat × List Nat)) (k v : List Nat) : List (List Nat × List Nat) :=
  match es with
  | [] => [(k, v)]
  | (k', v') :: rest => if k' = k then (k', v) :: rest else (k', v') :: mapSet rest k v

/-! ### The `multiaddr` library surface used by `enr.ts` -/

/-- The slice of a `multiaddr` value the setters consult: its protocol
segments, each carrying the protocol code, the protocol name and the
address bytes of that segment. -/
structure Multiaddr where
  segs : List (Nat × String × List Nat)

/-- `multiaddr.protoNames()`. -/
def Multiaddr.protoNames (m : Multiaddr) : List String := m.segs.map (fun s => s.2.1)

/-- `multiaddr.tuples()`: (protocol code, bytes) per segment. -/
def Multiaddr.tuples (m : Multiaddr) : List (Nat × List Nat) :=
  m.segs.map (fun s => (s.1, s.2.2))

/-- The multiaddr the endpoint getters construct from a string
`/ip4/a.b.c.d/udp/p` (resp. ip6/tcp): address family, the numeric groups
of the address part (for ip4 the four dotted byte values; for ip6, one hex
group per byte, reflecting the code's byte-wise `Uint16Array.from`
conversion), transport name, and port.  The `Multiaddr()` constructor's
string validation is not modelled; theorems about the getters restrict to
well-formed address and port entries. -/
structure MultiaddrRepr where
  fam : Nat
  addrGroups : List Nat
  protoName : String
  port : Nat
deriving DecidableEq

/-- `buf.readUInt16BE(0)`: big-endian 16-bit read of the first two bytes;
throws `RangeError` when the buffer is shorter than two bytes. -/
def readUInt16BE (b : List Nat) : Except String Nat :=
  match b with
  | x :: y :: _ => .ok (x * 256 + y)
  | _ => .error "RangeError"

/-! ### The `ENR` class (`src/enr/enr.ts`) -/

/-- The `ENR` record: a `Map` of entries (insertion-ordered association
list), the sequence number `seq`, and the optional `signature`. -/
structure ENR where
  entries : List (List Nat × List Nat)
  seq : Nat
  signature : Option (List Nat)
deriving DecidableEq

/-- The overridden `set` of `ENR`: clears the signature, increments the
sequence number, stores the value via `Map.set`. -/
def ENR.set (r : ENR) (k v : List Nat) : ENR :=
  ⟨mapSet r.entries k v, r.seq + 1, none⟩

/-- The `id` getter: `(this.get("id") as Buffer).toString("utf8")`; absent
entry makes the method call on `undefined` throw a `TypeError`. -/
def ENR.idTag (r : ENR) : Except String (List Nat) :=
  match mapGet r.entries (strBytes "id") with
  | none => .error "TypeError"
  | some v => .ok v

/-- `verify(data, signature)`: dispatch on the identity-scheme tag; for
"v4" delegate to `v4.verify` with the record's `secp256k1` entry as public
key (an absent key reaches `v4.verify` as `undefined`, which per the
scheme contract yields `false` rather than a throw). -/
def ENR.verifySig (r : ENR) (data signature : List Nat) : Except String Bool :=
  match r.idTag with
  | .error e => .error e
  | .ok i =>
    if i = strBytes "v4" then
      .ok (match mapGet r.entries (strBytes "secp256k1") with
           | some pk => v4.verify pk data signature
           | none => false)
    else .error ERR_INVALID_ID

/-- `sign(data, privateKey)`: for "v4", store `v4.sign(privateKey, data)`
as the new signature and return it; unknown tag throws without mutating. -/
def ENR.signRecord (r : ENR) (data privateKey : List Nat) :
    Except String (List Nat) × ENR :=
  match r.idTag with
  | .error e => (.error e, r)
  | .ok i =>
    if i = strBytes "v4" then
      let sig := v4.sign privateKey data
      (.ok sig, { r with signature := some sig })
    else (.error ERR_INVALID_ID, r)

/-- The `nodeId` getter: for "v4", `v4.nodeId(publicKey)`; an absent
`secp256k1` entry makes the hash of `undefined` throw. -/
def ENR.nodeIdOf (r : ENR) : Except String (List Nat) :=
  match r.idTag with
  | .error e => .error e
  | .ok i =>
    if i = strBytes "v4" then
      match mapGet r.entries (strBytes "secp256k1") with
      | some pk => .ok (v4.nodeId pk)
      | none => .error "TypeError"
    else .error ERR_INVALID_ID

/-- The item list `[sequenceNumber, key0, value0, key1, value1, ...]` that
`encode` builds: keys in insertion order, sorted with `localeCompare`,
mapped to `[k, this.get(k)]` pairs and flattened, with `Number(this.seq)`
prepended (represented here, as in the RLP encoding, by its minimal
big-endian bytes). -/
def ENR.content (r : ENR) : List (List Nat) :=
  beBytes r.seq ::
    ((sortKeys (r.entries.map Prod.fst)).map
      (fun k => [k, (mapGet r.entries k).getD []])).flatten

/-- `encode(privateKey?)`.  Returns the produced bytes (or the thrown
error) together with the record's state after the call: when a private key
is supplied, `sign` has replaced the signature *before* the size check, so
the mutation survives a `RecordTooLarge` failure. -/
def ENR.encode (r : ENR) (privateKey : Option (List Nat)) :
    Except String (List Nat) × ENR :=
  let content := r.content
  match privateKey with
  | some pk =>
    match r.signRecord (rlpEncodeStrList content) pk with
    | (.error e, r') => (.error e, r')
    | (.ok sig, r') =>
      let encoded := rlpEncodeStrList (sig :: content)
      if encoded.length < MAX_RECORD_SIZE then (.ok encoded, r')
      else (.error "ENR must be less than 300 bytes", r')
  | none =>
    match r.signature with
    | none => (.error ERR_NO_SIGNATURE, r)
    | some sig =>
      let encoded := rlpEncodeStrList (sig :: content)
      if encoded.length < MAX_RECORD_SIZE then (.ok encoded, r)
      else (.error "ENR must be less than 300 bytes", r)

/-- Group the decoded `kvs` buffers into consecutive (key, value) pairs,
as the reconstruction loop does.  Reached only with an even number of
elements (the decode-time length check); an odd tail would make the source
throw on `Buffer.from(undefined)`. -/
def pairsOf : List (List Nat) → List (List Nat × List Nat)
  | k :: v :: rest => (k, v) :: pairsOf rest
  | _ => []

/-- Require every decoded element to be a byte string, as the source's
cast to `Buffer[]` assumes.  A nested list element is not a `Buffer`, and
the subsequent buffer operations on it do not treat it as the record's
bytes; this model folds those cases into a decode failure. -/
def allStrs : List RLPVal → Option (List (List Nat))
  | [] => some []
  | .str s :: rest => (allStrs rest).map (fun l => s :: l)
  | .list _ :: _ => none

/-- `ENR.decode(encoded)`: RLP-decode, check the top level is a list with
an even number of elements, rebuild the entries from consecutive pairs,
parse the sequence number big-endian, and verify the signature against the
re-encoded unsigned portion before returning the record. -/
def ENR.decode (encoded : List Nat) : Except String ENR :=
  match rlpDecode encoded with
  | .error e => .error e
  | .ok (.str _) => .error "Decoded ENR must be an array"
  | .ok (.list vals) =>
    match allStrs vals with
    | none => .error "Decoded ENR element is not a buffer"
    | some items =>
      if items.length % 2 ≠ 0 then
        .error "Decoded ENR must have an even number of elements"
      else
        match items with
        | [] => .error "TypeError"
        | [_] => .error "TypeError"
        | sig :: seqB :: kvs =>
          let entries :=
            (pairsOf kvs).foldl (fun m kv => mapSet m kv.1 kv.2) []
          let enr : ENR := ⟨entries, beVal seqB, some sig⟩
          match enr.verifySig (rlpEncodeStrList (seqB :: kvs)) sig with
          | .ok true => .ok enr
          | .ok false => .error "Unable to verify enr signature"
          | .error e => .error e

/-- The `multiaddrUDP` getter: try the IPv4 pair `ip`/`udp` first and,
only when one of them is absent, the IPv6 pair `ip6`/`udp6`; absent
address or port on both sides yields `undefined`. -/
def ENR.multiaddrUDP (r : ENR) : Except String (Option MultiaddrRepr) :=
  match mapGet r.entries (strBytes "ip"), mapGet r.entries (strBytes "udp") with
  | some ip4, some udp4 =>
    (readUInt16BE udp4).map (fun p => some ⟨4, ip4, "udp", p⟩)
  | _, _ =>
    match mapGet r.entries (strBytes "ip6"), mapGet r.entries (strBytes "udp6") with
    | some ip6, some udp6 =>
      (readUInt16BE udp6).map (fun p => some ⟨6, ip6, "udp", p⟩)
    | _, _ => .ok none

/-- The `multiaddrTCP` getter, same shape with `tcp`/`tcp6`. -/
def ENR.multiaddrTCP (r : ENR) : Except String (Option MultiaddrRepr) :=
  match mapGet r.entries (strBytes "ip"), mapGet r.entries (strBytes "tcp") with
  | some ip4, some tcp4 =>
    (readUInt16BE tcp4).map (fun p => some ⟨4, ip4, "tcp", p⟩)
  | _, _ =>
    match mapGet r.entries (strBytes "ip6"), mapGet r.entries (strBytes "tcp6") with
    | some ip6, some tcp6 =>
      (readUInt16BE tcp6).map (fun p => some ⟨6, ip6, "tcp", p⟩)
    | _, _ => .ok none

/-- The `multiaddrUDP` setter.  `undefined` returns silently; otherwise
the guard `protoNames.length !== 2 && protoNames[1] !== "udp"` (the
source's literal conjunction) throws, and on fall-through the first two
tuples are written into the v4 or v6 entry pair via the overridden `set`. -/
def ENR.setMultiaddrUDP (r : ENR) (multiaddr : Option Multiaddr) : Except String ENR :=
  match multiaddr with
  | none => .ok r
  | some ma =>
    let protoNames := ma.protoNames
    if protoNames.length ≠ 2 ∧ protoNames.get? 1 ≠ some "udp" then
      .error "Invalid udp multiaddr"
    else
      let tuples := ma.tuples
      match tuples.get? 0, tuples.get? 1 with
      | some t0, some t1 =>
        if t0.1 = 4 then
          .ok ((r.set (strBytes "ip") t0.2).set (strBytes "udp") t1.2)
        else
          .ok ((r.set (strBytes "ip6") t0.2).set (strBytes "udp6") t1.2)
      | _, _ => .error "TypeError"

/-- The `multiaddrTCP` setter, same shape (including the source's
conjunction guard and its "Invalid udp multiaddr" message). -/
def ENR.setMultiaddrTCP (r : ENR) (multiaddr : Option Multiaddr) : Except String ENR :=
  match multiaddr with
  | none => .ok r
  | some ma =>
    let protoNames := ma.protoNames
    if protoNames.length ≠ 2 ∧ protoNames.get? 1 ≠ some "tcp" then
      .error "Invalid udp multiaddr"
    else
      let tuples := ma.tuples
      match tuples.get? 0, tuples.get? 1 with
      | some t0, some t1 =>
        if t0.1 = 4 then
          .ok ((r.set (strBytes "ip") t0.2).set (strBytes "tcp") t1.2)
        else
          .ok ((r.set (strBytes "ip6") t0.2).set (strBytes "tcp6") t1.2)
      | _, _ => .error "TypeError"

/-! ### Concrete values used to instantiate theorems -/

/-- A minimal v4 record as `createV4` builds it, for private key `[1]`. -/
def exampleENR : ENR :=
  ⟨[(strBytes "id", strBytes "v4"), (strBytes "secp256k1", v4.publicKeyOf [1])], 1, none⟩

/-- The bytes `exampleENR.encode([1])` produces. -/
def exampleEncoded : List Nat :=
  match (ENR.encode exampleENR (some [1])).1 with
  | .ok b => b
  | .error _ => []

/-- The record `ENR.decode exampleEncoded` yields. -/
def exampleDecoded : ENR :=
  ⟨[(strBytes "id", strBytes "v4"), (strBytes "secp256k1", v4.publicKeyOf [1])], 1,
    some (v4.sign [1] (rlpEncodeStrList (ENR.content exampleENR)))⟩

/-- A record whose signed encoding reaches the 300-byte ceiling. -/
def oversizedENR : ENR :=
  ⟨[(strBytes "id", strBytes "v4"), (strBytes "x", List.replicate 200 7)], 1, none⟩

/-- A record carrying a (stale) signature, for exercising `encode()`
without a private key. -/
def signedENR : ENR := ⟨[(strBytes "id", strBytes "v4")], 5, some [9, 9]⟩

/-- A record with both the IPv4 and the IPv6 endpoint pairs populated. -/
def dualStackENR : ENR :=
  ⟨[(strBytes "id", strBytes "v4"),
    (strBytes "ip", [192, 0, 2, 1]), (strBytes "udp", [118, 95]),
    (strBytes "tcp", [118, 96]),
    (strBytes "ip6", List.replicate 16 1), (strBytes "udp6", [200, 0]),
    (strBytes "tcp6", [200, 1])], 1, none⟩

/-- `/ip4/192.0.2.1/tcp/30303`: exactly two protocol segments, but with
transport `tcp`, handed to the *UDP* setter. -/
def wrongTransportUDP : Multiaddr := ⟨[(4, "ip4", [192, 0, 2, 1]), (6, "tcp", [118, 95])]⟩

/-- `/ip4/192.0.2.1/udp/30303`: exactly two protocol segments, but with
transport `udp`, handed to the *TCP* setter. -/
def wrongTransportTCP : Multiaddr := ⟨[(4, "ip4", [192, 0, 2, 1]), (273, "udp", [118, 95])]⟩

/-! ## Lemmas about the byte-level helpers -/

theorem beBytesAux_congr : ∀ f g n, n ≤ f → n ≤ g → beBytesAux f n = beBytesAux g n := by
  intro f
  induction f with
  | zero =>
    intro g n hf _
    have hn : n = 0 := Nat.le_zero.mp hf
    subst hn
    cases g <;> rfl
  | succ f ih =>
    intro g n hf hg
    match g, n with
    | 0, n =>
      have hn : n = 0 := Nat.le_zero.mp hg
      subst hn
      rfl
    | g + 1, 0 => rfl
    | g + 1, n + 1 =>
      show beBytesAux f ((n + 1) / 256) ++ [(n + 1) % 256]
          = beBytesAux g ((n + 1) / 256) ++ [(n + 1) % 256]
      have hlt : (n + 1) / 256 < n + 1 := Nat.div_lt_self (Nat.succ_pos n) (by norm_num)
      rw [ih g ((n + 1) / 256) (by omega) (by omega)]

theorem beBytes_eq (n : Nat) :
    beBytes n = if n = 0 then [] else beBytes (n / 256) ++ [n % 256] := by
  match n with
  | 0 => rfl
  | n + 1 =>
    have hlt : (n + 1) / 256 < n + 1 := Nat.div_lt_self (Nat.succ_pos n) (by norm_num)
    show beBytesAux n ((n + 1) / 256) ++ [(n + 1) % 256] = _
    rw [if_neg (Nat.succ_ne_zero n)]
    unfold beBytes
    rw [beBytesAux_congr n ((n + 1) / 256) ((n + 1) / 256) (by omega) le_rfl]

theorem beVal_append (xs : List Nat) (b : Nat) :
    beVal (xs ++ [b]) = beVal xs * 256 + b := by
  simp [beVal, List.foldl_append]

theorem beVal_beBytes (n : Nat) : beVal (beBytes n) = n := by
  induction n using Nat.strong_induction_on with
  | _ n ih =>
    rw [beBytes_eq]
    by_cases h : n = 0
    · subst h; rfl
    · rw [if_neg h, beVal_append,
        ih (n / 256) (Nat.div_lt_self (Nat.pos_of_ne_zero h) (by norm_num))]
      omega

theorem beBytes_ne_nil {n : Nat} (h : n ≠ 0) : beBytes n ≠ [] := by
  rw [beBytes_eq, if_neg h]
  simp

theorem beBytes_length_le : ∀ k n, n < 256 ^ k → (beBytes n).length ≤ k := by
  intro k
  induction k with
  | zero =>
    intro n h
    have hn : n = 0 := by omega
    subst hn
    simp [beBytes, beBytesAux]
  | succ k ih =>
    intro n h
    rw [beBytes_eq]
    by_cases h0 : n = 0
    · simp [h0]
    · rw [if_neg h0]
      have hdiv : n / 256 < 256 ^ k := by
        rw [Nat.div_lt_iff_lt_mul (by norm_num : (0 : Nat) < 256)]
        calc n < 256 ^ (k + 1) := h
          _ = 256 ^ k * 256 := by ring
      have := ih (n / 256) hdiv
      simp only [List.length_append, List.length_cons, List.length_nil]
      omega

/-! ## Lemmas about RLP encoding sizes -/

theorem one_le_length_rlpEncodeStr (s : List Nat) : 1 ≤ (rlpEncodeStr s).length := by
  match s with
  | [] => simp [rlpEncodeStr, encodeLength]
  | [b] =>
    by_cases h : b < 128 <;> simp [rlpEncodeStr, encodeLength, h]
  | a :: c :: t =>
    show 1 ≤ (encodeLength (a :: c :: t).length 128 ++ (a :: c :: t)).length
    simp only [encodeLength, List.length_append, List.length_cons]
    split <;> omega

theorem length_le_length_rlpEncodeStr (s : List Nat) :
    s.length ≤ (rlpEncodeStr s).length := by
  match s with
  | [] => simp [rlpEncodeStr, encodeLength]
  | [b] =>
    by_cases h : b < 128 <;> simp [rlpEncodeStr, encodeLength, h]
  | a :: c :: t =>
    show (a :: c :: t).length ≤ (encodeLength (a :: c :: t).length 128 ++ (a :: c :: t)).length
    simp only [encodeLength, List.length_append]
    split <;> simp

theorem rlpPayload_cons (s : List Nat) (items : List (List Nat)) :
    rlpPayload (s :: items) = rlpEncodeStr s ++ rlpPayload items := by
  simp [rlpPayload]

theorem count_le_length_rlpPayload (items : List (List Nat)) :
    items.length ≤ (rlpPayload items).length := by
  induction items with
  | nil => simp [rlpPayload]
  | cons s t ih =>
    rw [rlpPayload_cons]
    simp only [List.length_append, List.length_cons]
    have := one_le_length_rlpEncodeStr s
    omega

theorem mem_length_le_rlpPayload {s : List Nat} {items : List (List Nat)} (h : s ∈ items) :
    s.length ≤ (rlpPayload items).length := by
  induction items with
  | nil => cases h
  | cons a t ih =>
    rw [rlpPayload_cons]
    simp only [List.length_append]
    rcases List.mem_cons.mp h with rfl | h'
    · have := length_le_length_rlpEncodeStr s
      omega
    · have := ih h'
      omega

theorem payload_length_le_rlpEncodeStrList (items : List (List Nat)) :
    (rlpPayload items).length ≤ (rlpEncodeStrList items).length := by
  simp only [rlpEncodeStrList, List.length_append]
  omega

/-! ## RLP decode inverts RLP encode -/

theorem rlpDecodeOne_strHeader (fuel : Nat) (s rest : List Nat) (hlen : s.length ≤ 55) :
    rlpDecodeOne (fuel + 1) ((s.length + 128) :: (s ++ rest)) = .ok (.str s, rest) := by
  have e1 : s.length + 128 - 128 = s.length := by omega
  simp only [rlpDecodeOne]
  rw [if_neg (by omega), if_pos (by omega), e1,
    if_neg (by simp only [List.length_append]; omega),
    List.take_left, List.drop_left]

theorem rlpDecodeOne_strHeaderLong (fuel : Nat) (s rest : List Nat)
    (hge : 56 ≤ s.length) (hlt : s.length < 256 ^ 8) :
    rlpDecodeOne (fuel + 1)
      (((beBytes s.length).length + 183) :: (beBytes s.length ++ (s ++ rest)))
      = .ok (.str s, rest) := by
  have hk1 : 1 ≤ (beBytes s.length).length :=
    List.length_pos.mpr (beBytes_ne_nil (by omega))
  have hk8 : (beBytes s.length).length ≤ 8 := beBytes_length_le 8 s.length hlt
  have e1 : (beBytes s.length).length + 183 - 183 = (beBytes s.length).length := by omega
  simp only [rlpDecodeOne]
  rw [if_neg (by omega), if_neg (by omega), if_pos (by omega), e1,
    if_neg (by simp only [List.length_append]; omega),
    List.take_left, List.drop_left, beVal_beBytes,
    if_neg (by simp only [List.length_append]; omega),
    List.take_left, List.drop_left]

theorem rlpDecodeOne_encodeStr_default (fuel : Nat) (s rest : List Nat)
    (hs : s.length < 256 ^ 8)
    (he : rlpEncodeStr s = encodeLength s.length 128 ++ s) :
    rlpDecodeOne (fuel + 1) (rlpEncodeStr s ++ rest) = .ok (.str s, rest) := by
  rw [he, encodeLength]
  by_cases hlen : s.length < 56
  · rw [if_pos hlen, List.singleton_append, List.cons_append]
    exact rlpDecodeOne_strHeader fuel s rest (by omega)
  · rw [if_neg hlen]
    have e2 : (beBytes s.length).length + 128 + 55 = (beBytes s.length).length + 183 := by
      omega
    rw [e2, List.cons_append, List.cons_append, List.append_assoc]
    exact rlpDecodeOne_strHeaderLong fuel s rest (by omega) hs

theorem rlpDecodeOne_encodeStr (fuel : Nat) (s rest : List Nat)
    (hs : s.length < 256 ^ 8) :
    rlpDecodeOne (fuel + 1) (rlpEncodeStr s ++ rest) = .ok (.str s, rest) := by
  match s with
  | [] => exact rlpDecodeOne_encodeStr_default fuel [] rest hs rfl
  | [b] =>
    by_cases hb : b < 128
    · have he : rlpEncodeStr [b] = [b] := by simp [rlpEncodeStr, hb]
      rw [he, List.singleton_append]
      simp [rlpDecodeOne, hb]
    · exact rlpDecodeOne_encodeStr_default fuel [b] rest hs
        (by simp [rlpEncodeStr, hb])
  | a :: c :: t => exact rlpDecodeOne_encodeStr_default fuel (a :: c :: t) rest hs rfl

theorem rlpDecodeMany_payload :
    ∀ (items : List (List Nat)) (fuel : Nat), items.length + 1 ≤ fuel →
    (∀ s ∈ items, s.length < 256 ^ 8) →
    rlpDecodeMany fuel (rlpPayload items) = .ok (items.map RLPVal.str) := by
  intro items
  induction items with
  | nil =>
    intro fuel hf _
    match fuel, hf with
    | fuel + 1, _ => simp [rlpPayload, rlpDecodeMany]
  | cons s t ih =>
    intro fuel hf hall
    match fuel, hf with
    | fuel + 1, hf =>
      have hfuel : ∃ f2, fuel = f2 + 1 := ⟨fuel - 1, by simp at hf; omega⟩
      obtain ⟨f2, rfl⟩ := hfuel
      rw [rlpPayload_cons]
      obtain ⟨b, tl, hbt⟩ : ∃ b tl, rlpEncodeStr s ++ rlpPayload t = b :: tl := by
        have h1 := one_le_length_rlpEncodeStr s
        match h : rlpEncodeStr s ++ rlpPayload t with
        | [] =>
          exfalso
          have := congrArg List.length h
          simp only [List.length_append, List.length_nil] at this
          omega
        | b :: tl => exact ⟨b, tl, rfl⟩
      have hone : rlpDecodeOne (f2 + 1) (b :: tl) = .ok (.str s, rlpPayload t) := by
        rw [← hbt]
        exact rlpDecodeOne_encodeStr f2 s (rlpPayload t) (hall s (by simp))
      have hmany : rlpDecodeMany (f2 + 1) (rlpPayload t) = .ok (t.map RLPVal.str) :=
        ih (f2 + 1) (by simp at hf ⊢; omega) (fun x hx => hall x (by simp [hx]))
      rw [hbt]
      simp only [rlpDecodeMany, hone, hmany, List.map_cons]

theorem rlpDecodeOne_listHeader (fuel : Nat) (payload rest : List Nat)
    (vs : List RLPVal) (h : payload.length < 56)
    (hmany : rlpDecodeMany fuel payload = .ok vs) :
    rlpDecodeOne (fuel + 1) ((payload.length + 192) :: (payload ++ rest))
      = .ok (.list vs, rest) := by
  have e1 : payload.length + 192 - 192 = payload.length := by omega
  simp only [rlpDecodeOne]
  rw [if_neg (by omega), if_neg (by omega), if_neg (by omega), if_pos (by omega), e1,
    if_neg (by simp only [List.length_append]; omega),
    List.take_left, List.drop_left, hmany]

theorem rlpDecodeOne_listHeaderLong (fuel : Nat) (payload rest : List Nat)
    (vs : List RLPVal) (hge : 56 ≤ payload.length) (hlt : payload.length < 256 ^ 8)
    (hmany : rlpDecodeMany fuel payload = .ok vs) :
    rlpDecodeOne (fuel + 1)
      (((beBytes payload.length).length + 247) :: (beBytes payload.length ++ (payload ++ rest)))
      = .ok (.list vs, rest) := by
  have hk1 : 1 ≤ (beBytes payload.length).length :=
    List.length_pos.mpr (beBytes_ne_nil (by omega))
  have hk8 : (beBytes payload.length).length ≤ 8 := beBytes_length_le 8 payload.length hlt
  have e1 : (beBytes payload.length).length + 247 - 247 = (beBytes payload.length).length := by
    omega
  simp only [rlpDecodeOne]
  rw [if_neg (by omega), if_neg (by omega), if_neg (by omega), if_neg (by omega), e1,
    if_neg (by simp only [List.length_append]; omega),
    List.take_left, List.drop_left, beVal_beBytes,
    if_neg (by simp only [List.length_append]; omega),
    List.take_left, List.drop_left, hmany]

theorem rlpDecode_encodeStrList (items : List (List Nat))
    (hP : (rlpPayload items).length < 256 ^ 8) :
    rlpDecode (rlpEncodeStrList items) = .ok (.list (items.map RLPVal.str)) := by
  have hcount := count_le_length_rlpPayload items
  have hmem : ∀ s ∈ items, s.length < 256 ^ 8 := fun s hx =>
    Nat.lt_of_le_of_lt (mem_length_le_rlpPayload hx) hP
  have hfuel : items.length + 1 ≤ (rlpEncodeStrList items).length := by
    have h1 : 1 ≤ (encodeLength (rlpPayload items).length 192).length := by
      simp only [encodeLength]
      split <;> simp
    simp only [rlpEncodeStrList, List.length_append]
    omega
  have hmany := rlpDecodeMany_payload items (rlpEncodeStrList items).length hfuel hmem
  have hone : rlpDecodeOne ((rlpEncodeStrList items).length + 1) (rlpEncodeStrList items)
      = .ok (.list (items.map RLPVal.str), []) := by
    by_cases h : (rlpPayload items).length < 56
    · have he : rlpEncodeStrList items
          = ((rlpPayload items).length + 192) :: (rlpPayload items ++ []) := by
        simp [rlpEncodeStrList, encodeLength, h]
      nth_rewrite 2 [he]
      exact rlpDecodeOne_listHeader (rlpEncodeStrList items).length (rlpPayload items) []
        (items.map RLPVal.str) h hmany
    · have he : rlpEncodeStrList items
          = ((beBytes (rlpPayload items).length).length + 247)
              :: (beBytes (rlpPayload items).length ++ (rlpPayload items ++ [])) := by
        have e : (beBytes (rlpPayload items).length).length + 192 + 55
            = (beBytes (rlpPayload items).length).length + 247 := by omega
        simp only [rlpEncodeStrList, encodeLength, if_neg h, List.append_nil,
          List.cons_append, e]
      nth_rewrite 2 [he]
      exact rlpDecodeOne_listHeaderLong (rlpEncodeStrList items).length (rlpPayload items) []
        (items.map RLPVal.str) (by omega) hP hmany
  unfold rlpDecode
  rw [hone]

/-! ## Lemmas about the key sort and the Map model -/

theorem perm_orderedInsert (k : List Nat) (ks : List (List Nat)) :
    List.Perm (orderedInsert k ks) (k :: ks) := by
  induction ks with
  | nil => exact List.Perm.refl _
  | cons x xs ih =>
    simp only [orderedInsert]
    split
    · exact List.Perm.refl _
    · exact List.Perm.trans (List.Perm.cons x ih) (List.Perm.swap k x xs)

theorem perm_sortKeys (ks : List (List Nat)) : List.Perm (sortKeys ks) ks := by
  induction ks with
  | nil => exact List.Perm.refl _
  | cons k t ih =>
    exact List.Perm.trans (perm_orderedInsert k (sortKeys t)) (List.Perm.cons k ih)

theorem mem_sortKeys {k : List Nat} {ks : List (List Nat)} : k ∈ sortKeys ks ↔ k ∈ ks :=
  (perm_sortKeys ks).mem_iff

theorem nodup_sortKeys {ks : List (List Nat)} (h : ks.Nodup) : (sortKeys ks).Nodup :=
  (perm_sortKeys ks).nodup_iff.mpr h

theorem mapGet_map_pairs (ks : List (List Nat)) (f : List Nat → List Nat) (key : List Nat) :
    mapGet (ks.map fun k => (k, f k)) key = if key ∈ ks then some (f key) else none := by
  induction ks with
  | nil => simp [mapGet]
  | cons a t ih =>
    simp only [List.map_cons, mapGet]
    by_cases h : a = key
    · subst h
      simp
    · rw [if_neg h, ih]
      by_cases hk : key ∈ t
      · rw [if_pos hk, if_pos (by simp [hk])]
      · rw [if_neg hk, if_neg ?_]
        simp only [List.mem_cons, not_or]
        exact ⟨fun e => h e.symm, hk⟩

theorem isSome_mapGet_iff (es : List (List Nat × List Nat)) (k : List Nat) :
    (mapGet es k).isSome ↔ k ∈ es.map Prod.fst := by
  induction es with
  | nil => simp [mapGet]
  | cons p t ih =>
    obtain ⟨k', v'⟩ := p
    simp only [mapGet, List.map_cons, List.mem_cons]
    by_cases h : k' = k
    · simp [h]
    · rw [if_neg h, ih]
      constructor
      · exact Or.inr
      · rintro (rfl | h')
        · exact absurd rfl h
        · exact h'

theorem mapGet_eq_none_of_not_mem {es : List (List Nat × List Nat)} {k : List Nat}
    (h : k ∉ es.map Prod.fst) : mapGet es k = none := by
  cases hopt : mapGet es k with
  | none => rfl
  | some x => exact absurd ((isSome_mapGet_iff es k).mp (by simp [hopt])) h

theorem mapGet_mapSet_self (es : List (List Nat × List Nat)) (k v : List Nat) :
    mapGet (mapSet es k v) k = some v := by
  induction es with
  | nil => simp [mapSet, mapGet]
  | cons p t ih =>
    obtain ⟨k', v'⟩ := p
    simp only [mapSet]
    by_cases h : k' = k
    · simp [mapGet, h]
    · simp [mapGet, h, ih]

theorem mapSet_of_not_mem {es : List (List Nat × List Nat)} {k : List Nat} (v : List Nat)
    (h : k ∉ es.map Prod.fst) : mapSet es k v = es ++ [(k, v)] := by
  induction es with
  | nil => rfl
  | cons p t ih =>
    obtain ⟨k', v'⟩ := p
    simp only [List.map_cons, List.mem_cons] at h
    push_neg at h
    show (if k' = k then (k', v) :: t else (k', v') :: mapSet t k v)
        = ((k', v') :: t) ++ [(k, v)]
    rw [if_neg (fun e => h.1 e.symm), ih h.2, List.cons_append]

theorem foldl_mapSet_of_nodup :
    ∀ (ps : List (List Nat × List Nat)) (acc : List (List Nat × List Nat)),
    (ps.map Prod.fst).Nodup →
    (∀ x ∈ ps.map Prod.fst, x ∉ acc.map Prod.fst) →
    ps.foldl (fun m kv => mapSet m kv.1 kv.2) acc = acc ++ ps := by
  intro ps
  induction ps with
  | nil => intro acc _ _; simp
  | cons p t ih =>
    intro acc hnd hdisj
    obtain ⟨k, v⟩ := p
    simp only [List.map_cons, List.nodup_cons] at hnd
    have hk : k ∉ acc.map Prod.fst := hdisj k (by simp)
    simp only [List.foldl_cons]
    rw [mapSet_of_not_mem v hk]
    rw [ih (acc ++ [(k, v)]) hnd.2 ?_]
    · simp
    · intro x hx
      simp only [List.map_append, List.mem_append, List.map_cons, List.mem_singleton]
      push_neg
      refine ⟨hdisj x (by simp [hx]), ?_⟩
      simp only [List.map_cons, List.map_nil, List.mem_cons, List.not_mem_nil]
      rintro (rfl | h)
      · exact hnd.1 hx
      · exact h

theorem pairsOf_flatten (ks : List (List Nat)) (f : List Nat → List Nat) :
    pairsOf ((ks.map fun k => [k, f k]).flatten) = ks.map fun k => (k, f k) := by
  induction ks with
  | nil => rfl
  | cons a t ih =>
    simp only [List.map_cons, List.flatten_cons, List.cons_append, List.nil_append]
    show (a, f a) :: pairsOf ((t.map fun k => [k, f k]).flatten) = _
    rw [ih]

theorem length_flatten_pairs (ks : List (List Nat)) (f : List Nat → List Nat) :
    ((ks.map fun k => [k, f k]).flatten).length = 2 * ks.length := by
  induction ks with
  | nil => rfl
  | cons a t ih =>
    simp only [List.map_cons, List.flatten_cons, List.length_append, List.length_cons,
      List.length_nil, List.length_singleton, ih]
    omega

theorem allStrs_map_str (xs : List (List Nat)) : allStrs (xs.map RLPVal.str) = some xs := by
  induction xs with
  | nil => rfl
  | cons a t ih => simp [allStrs, ih]

theorem allStrs_eq_some :
    ∀ {vals : List RLPVal} {items : List (List Nat)},
    allStrs vals = some items → vals = items.map RLPVal.str := by
  intro vals
  induction vals with
  | nil =>
    intro items h
    simp only [allStrs, Option.some_inj] at h
    subst h
    rfl
  | cons v t ih =>
    intro items h
    match v with
    | .str s =>
      simp only [allStrs] at h
      cases ht : allStrs t with
      | none => rw [ht] at h; simp at h
      | some t' =>
        rw [ht] at h
        simp only [Option.map_some'] at h
        obtain rfl : s :: t' = items := by simpa using h
        simp [ih ht]
    | .list _ => simp [allStrs] at h

theorem map_fst_pairs (ks : List (List Nat)) (f : List Nat → List Nat) :
    ((ks.map fun k => (k, f k)).map Prod.fst) = ks := by
  induction ks with
  | nil => rfl
  | cons a t ih => simp [ih]

/-! ## Decoding a well-formed signed encoding -/

theorem ENR.decode_wellformed (sig seqB : List Nat) (ks : List (List Nat))
    (f : List Nat → List Nat) (hnd : ks.Nodup)
    (hP : (rlpPayload (sig :: seqB :: (ks.map fun k => [k, f k]).flatten)).length < 256 ^ 8)
    (hver : ENR.verifySig ⟨ks.map fun k => (k, f k), beVal seqB, some sig⟩
      (rlpEncodeStrList (seqB :: (ks.map fun k => [k, f k]).flatten)) sig = .ok true) :
    ENR.decode (rlpEncodeStrList (sig :: seqB :: (ks.map fun k => [k, f k]).flatten))
      = .ok ⟨ks.map fun k => (k, f k), beVal seqB, some sig⟩ := by
  have hrlp := rlpDecode_encodeStrList _ hP
  have hlen2 := length_flatten_pairs ks f
  have hfold : ((pairsOf ((ks.map fun k => [k, f k]).flatten)).foldl
      (fun m kv => mapSet m kv.1 kv.2) []) = ks.map fun k => (k, f k) := by
    rw [pairsOf_flatten]
    have := foldl_mapSet_of_nodup (ks.map fun k => (k, f k)) []
      (by rw [map_fst_pairs]; exact hnd) (by simp)
    simpa using this
  unfold ENR.decode
  rw [hrlp]
  simp only [allStrs_map_str]
  rw [if_neg (by simp only [List.length_cons, hlen2]; omega)]
  simp only [hfold, hver]


/-! ## encode characterizations -/

theorem ENR.encode_none_eq (r : ENR) (sig : List Nat) (h : r.signature = some sig) :
    r.encode none
      = (if (rlpEncodeStrList (sig :: r.content)).length < MAX_RECORD_SIZE
          then .ok (rlpEncodeStrList (sig :: r.content))
          else .error "ENR must be less than 300 bytes", r) := by
  simp only [ENR.encode, h]
  split <;> simp [*]

theorem ENR.encode_some_eq (r : ENR) (pk : List Nat)
    (hid : mapGet r.entries (strBytes "id") = some (strBytes "v4")) :
    r.encode (some pk)
      = (if (rlpEncodeStrList (v4.sign pk (rlpEncodeStrList r.content) :: r.content)).length
            < MAX_RECORD_SIZE
          then .ok (rlpEncodeStrList (v4.sign pk (rlpEncodeStrList r.content) :: r.content))
          else .error "ENR must be less than 300 bytes",
         { r with signature := some (v4.sign pk (rlpEncodeStrList r.content)) }) := by
  simp only [ENR.encode, ENR.signRecord, ENR.idTag, hid, if_true]
  split <;> simp [*]

theorem ENR.encode_state_none_id (r : ENR) (pk : List Nat)
    (hid : mapGet r.entries (strBytes "id") = none) :
    (r.encode (some pk)).2 = r := by
  simp only [ENR.encode, ENR.signRecord, ENR.idTag, hid]

theorem ENR.encode_state_other_id (r : ENR) (pk : List Nat) (i : List Nat)
    (hid : mapGet r.entries (strBytes "id") = some i) (hne : i ≠ strBytes "v4") :
    (r.encode (some pk)).2 = r := by
  simp only [ENR.encode, ENR.signRecord, ENR.idTag, hid, if_neg hne]

/-- For a record whose entries agree with `r`'s on the `id` and `secp256k1`
lookups of the v4 scheme, `nodeIdOf` computes the v4 node identifier. -/
theorem ENR.nodeIdOf_eq (s : ENR) (pub : List Nat)
    (h1 : mapGet s.entries (strBytes "id") = some (strBytes "v4"))
    (h2 : mapGet s.entries (strBytes "secp256k1") = some pub) :
    s.nodeIdOf = .ok (v4.nodeId pub) := by
  simp only [ENR.nodeIdOf, ENR.idTag, h1, h2, if_true]

/-! ## Claim theorems -/

/-- C1: the key comparison `encode` uses is `localeCompare` (locale-aware
root collation), and it does not agree with byte-wise lexicographic
comparison of the keys' byte representations: for keys "a" and "B",
byte-wise order puts "B" (0x42) before "a" (0x61), but the comparator used
by `encode` orders "a" before "B", so `sortKeys` emits ["a", "B"].  This
exhibits the divergence between the code and the spec's required byte-wise
sort at a concrete input. -/
theorem enr_encode_key_sort_disagrees_with_bytewise :
    localeLt (strBytes "a") (strBytes "B") = true ∧
    localeLt (strBytes "B") (strBytes "a") = false ∧
    byteLexLt (strBytes "B") (strBytes "a") = true ∧
    sortKeys [strBytes "B", strBytes "a"] = [strBytes "a", strBytes "B"] := by
  decide

/-- C2: the endpoint setters do not validate as the spec claims.  Because
the guard is `protoNames.length !== 2 && protoNames[1] !== "udp"` (a
conjunction where the spec requires a disjunction), a two-segment
multiaddr with the *wrong* transport passes validation: the UDP setter
accepts `/ip4/192.0.2.1/tcp/30303` and writes the `ip` and `udp` entries
(bumping the sequence number twice) instead of failing with
`InvalidEndpoint`; symmetrically for the TCP setter. -/
theorem enr_endpoint_setter_accepts_wrong_transport :
    ENR.setMultiaddrUDP ⟨[], 1, none⟩ (some wrongTransportUDP)
      = .ok ⟨[(strBytes "ip", [192, 0, 2, 1]), (strBytes "udp", [118, 95])], 3, none⟩ ∧
    ENR.setMultiaddrTCP ⟨[], 1, none⟩ (some wrongTransportTCP)
      = .ok ⟨[(strBytes "ip", [192, 0, 2, 1]), (strBytes "tcp", [118, 95])], 3, none⟩ :=
  ⟨rfl, rfl⟩

/-- C4: for every record and every key/value pair, `set` clears the
signature to absent, increments the sequence number by exactly 1, and
stores the value under the key — with no no-op detection, since the
statement quantifies over all values including one identical to the value
already stored. -/
theorem enr_set_clears_signature_bumps_seq (r : ENR) (k v : List Nat) :
    (r.set k v).signature = none ∧ (r.set k v).seq = r.seq + 1 ∧
    mapGet (r.set k v).entries k = some v :=
  ⟨rfl, rfl, mapGet_mapSet_self r.entries k v⟩

/-- C9: calling either endpoint setter with an absent (`undefined`) value
is a silent no-op: it returns without error and the record — entries,
sequence number and signature — is unchanged. -/
theorem enr_endpoint_setter_undefined_noop (r : ENR) :
    ENR.setMultiaddrUDP r none = .ok r ∧ ENR.setMultiaddrTCP r none = .ok r :=
  ⟨rfl, rfl⟩

/-- C10: when a record contains the IPv4 address entry `ip` with its
matching port entry (`udp` resp. `tcp`), the endpoint getters return the
IPv4 endpoint built from those entries, whatever the IPv6 entries `ip6`,
`udp6`, `tcp6` contain: the IPv6 pair is consulted only when the IPv4
address or port entry is absent. -/
theorem enr_endpoint_getters_prefer_ipv4 (r : ENR) (ip4 ip6v udp6v tcp6v : List Nat)
    (u0 u1 t0 t1 : Nat) (ur tr : List Nat)
    (hip : mapGet r.entries (strBytes "ip") = some ip4)
    (hudp : mapGet r.entries (strBytes "udp") = some (u0 :: u1 :: ur))
    (htcp : mapGet r.entries (strBytes "tcp") = some (t0 :: t1 :: tr))
    (_hip6 : mapGet r.entries (strBytes "ip6") = some ip6v)
    (_hudp6 : mapGet r.entries (strBytes "udp6") = some udp6v)
    (_htcp6 : mapGet r.entries (strBytes "tcp6") = some tcp6v) :
    r.multiaddrUDP = .ok (some ⟨4, ip4, "udp", u0 * 256 + u1⟩) ∧
    r.multiaddrTCP = .ok (some ⟨4, ip4, "tcp", t0 * 256 + t1⟩) := by
  constructor
  · simp only [ENR.multiaddrUDP, hip, hudp]
    rfl
  · simp only [ENR.multiaddrTCP, hip, htcp]
    rfl

/-- C6: for every record carrying a signature, if the RLP encoding of the
full item list `[signature, seq, k0, v0, ...]` is 300 bytes or longer,
`encode` fails with the `RecordTooLarge` error ("ENR must be less than
300 bytes") and returns no bytes; if it is shorter than 300 bytes,
`encode` returns exactly those bytes (never a truncation). -/
theorem enr_encode_size_bound (r : ENR) (sig : List Nat) (h : r.signature = some sig) :
    (MAX_RECORD_SIZE ≤ (rlpEncodeStrList (sig :: r.content)).length →
      (r.encode none).1 = .error "ENR must be less than 300 bytes") ∧
    ((rlpEncodeStrList (sig :: r.content)).length < MAX_RECORD_SIZE →
      (r.encode none).1 = .ok (rlpEncodeStrList (sig :: r.content))) := by
  rw [ENR.encode_none_eq r sig h]
  constructor
  · intro hge
    rw [if_neg (by omega)]
  · intro hlt
    rw [if_pos hlt]

/-- C7: the signing step inside `encode(privateKey)` replaces the record's
signature with the newly computed one but never changes the sequence
number: the post-call state's `seq` equals the pre-call `seq`
(unconditionally, hence in particular on success), and for a "v4" record
the post-call signature is the freshly computed `v4.sign` over the
RLP-encoded unsigned content. -/
theorem enr_encode_sign_preserves_seq (r : ENR) (pk : List Nat) :
    ((r.encode (some pk)).2).seq = r.seq ∧
    (mapGet r.entries (strBytes "id") = some (strBytes "v4") →
      ((r.encode (some pk)).2).signature
        = some (v4.sign pk (rlpEncodeStrList r.content))) := by
  constructor
  · cases hid : mapGet r.entries (strBytes "id") with
    | none => rw [ENR.encode_state_none_id r pk hid]
    | some i =>
      by_cases hi : i = strBytes "v4"
      · subst hi
        rw [ENR.encode_some_eq r pk hid]
      · rw [ENR.encode_state_other_id r pk i hid hi]
  · intro hid
    rw [ENR.encode_some_eq r pk hid]

/-- C8: when `encode(privateKey)` fails because the encoded record reaches
the 300-byte ceiling, the record's signature has already been replaced by
the signature computed during that call — the failure is not atomic, and
a record whose signature was previously absent is left in a state
different from its state before the call. -/
theorem enr_encode_size_failure_keeps_new_signature (r : ENR) (pk : List Nat)
    (hid : mapGet r.entries (strBytes "id") = some (strBytes "v4"))
    (hbig : MAX_RECORD_SIZE
      ≤ (rlpEncodeStrList (v4.sign pk (rlpEncodeStrList r.content) :: r.content)).length) :
    (r.encode (some pk)).1 = .error "ENR must be less than 300 bytes" ∧
    (r.encode (some pk)).2.signature
      = some (v4.sign pk (rlpEncodeStrList r.content)) ∧
    (r.signature = none → (r.encode (some pk)).2 ≠ r) := by
  rw [ENR.encode_some_eq r pk hid]
  refine ⟨by rw [if_neg (by omega)], rfl, ?_⟩
  intro hnone heq
  have hsig := congrArg ENR.signature heq
  simp only [hnone] at hsig
  exact Option.noConfusion hsig

/-- C5: whenever `decode` returns a record, the input RLP-decoded to
`[signature, seqBytes, k0, v0, ...]`, the returned record carries exactly
that signature, and that signature was successfully verified — via the
record's identity scheme and public key (`verifySig`) — against the
re-encoding of the unsigned portion `[seqBytes, k0, v0, ...]`.  On a
failed verification `decode` produces an error and no record. -/
theorem enr_decode_returns_only_verified (encoded : List Nat) (r : ENR)
    (h : ENR.decode encoded = .ok r) :
    ∃ sig rest, rlpDecode encoded = .ok (.list ((sig :: rest).map RLPVal.str)) ∧
      r.signature = some sig ∧
      r.verifySig (rlpEncodeStrList rest) sig = .ok true := by
  unfold ENR.decode at h
  cases hrlp : rlpDecode encoded with
  | error e => rw [hrlp] at h; exact absurd h (by simp)
  | ok v =>
    rw [hrlp] at h
    cases v with
    | str s => simp at h
    | list vals =>
      cases hstr : allStrs vals with
      | none =>
        simp only [hstr] at h
        exact absurd h (by simp)
      | some items =>
        simp only [hstr] at h
        by_cases heven : items.length % 2 ≠ 0
        · rw [if_pos heven] at h; simp at h
        · rw [if_neg heven] at h
          match items, h with
          | [], h => simp at h
          | [x], h => simp at h
          | sig :: seqB :: kvs, h =>
            cases hver : ENR.verifySig
                ⟨(pairsOf kvs).foldl (fun m kv => mapSet m kv.1 kv.2) [],
                  beVal seqB, some sig⟩
                (rlpEncodeStrList (seqB :: kvs)) sig with
            | error e =>
              simp only [hver] at h
              exact absurd h (by simp)
            | ok b =>
              cases b with
              | false =>
                simp only [hver] at h
                exact absurd h (by simp)
              | true =>
                simp only [hver] at h
                have hr : (⟨(pairsOf kvs).foldl (fun m kv => mapSet m kv.1 kv.2) [],
                    beVal seqB, some sig⟩ : ENR) = r := by simpa using h
                refine ⟨sig, seqB :: kvs, ?_, ?_, ?_⟩
                · rw [allStrs_eq_some hstr]
                · rw [← hr]
                · rw [← hr]
                  exact hver

/-- C3: round trip.  For a record with unique keys, scheme tag "v4" and a
`secp256k1` entry matching the signing private key, if `encode(priv)`
succeeds with bytes `enc` (leaving the record in state `r1`, its signature
replaced by the fresh one), then `decode enc` succeeds and yields a record
with the same entry map (pointwise-equal lookups), the same sequence
number, the same signature, and the same derived node identifier as `r1`.
The `seq < 2 ^ 53` bound reflects exactness of the `Number(this.seq)`
conversion. -/
theorem enr_encode_decode_roundtrip (r r1 : ENR) (priv enc : List Nat)
    (hnodup : (r.entries.map Prod.fst).Nodup)
    (hid : mapGet r.entries (strBytes "id") = some (strBytes "v4"))
    (hpk : mapGet r.entries (strBytes "secp256k1") = some (v4.publicKeyOf priv))
    (_hseq : r.seq < 2 ^ 53)
    (henc : ENR.encode r (some priv) = (.ok enc, r1)) :
    ∃ r' : ENR, ENR.decode enc = .ok r' ∧
      (∀ k, mapGet r'.entries k = mapGet r1.entries k) ∧
      r'.seq = r1.seq ∧ r'.signature = r1.signature ∧
      r'.nodeIdOf = r1.nodeIdOf := by
  rw [ENR.encode_some_eq r priv hid] at henc
  by_cases hsize : (rlpEncodeStrList
      (v4.sign priv (rlpEncodeStrList r.content) :: r.content)).length < MAX_RECORD_SIZE
  swap
  · rw [if_neg hsize] at henc
    exact absurd (congrArg Prod.fst henc) (by simp)
  rw [if_pos hsize] at henc
  have henc1 : rlpEncodeStrList (v4.sign priv (rlpEncodeStrList r.content) :: r.content)
      = enc := by
    have h1 := congrArg Prod.fst henc
    simpa using h1
  have henc2 : r1
      = { r with signature := some (v4.sign priv (rlpEncodeStrList r.content)) } := by
    have h2 := congrArg Prod.snd henc
    simpa using h2.symm
  set ks := sortKeys (r.entries.map Prod.fst) with hks
  set sig := v4.sign priv (rlpEncodeStrList r.content) with hsig
  have hcontent : r.content
      = beBytes r.seq :: (ks.map fun k => [k, (mapGet r.entries k).getD []]).flatten := rfl
  have hsame : ∀ key,
      mapGet (ks.map fun k => (k, (mapGet r.entries k).getD [])) key
        = mapGet r.entries key := by
    intro key
    rw [mapGet_map_pairs]
    by_cases hk : key ∈ ks
    · rw [if_pos hk]
      have hmem : key ∈ r.entries.map Prod.fst := mem_sortKeys.mp hk
      obtain ⟨x, hx⟩ := Option.isSome_iff_exists.mp ((isSome_mapGet_iff _ _).mpr hmem)
      rw [hx]
      simp
    · rw [if_neg hk]
      have hnm : key ∉ r.entries.map Prod.fst := fun hm => hk (mem_sortKeys.mpr hm)
      rw [mapGet_eq_none_of_not_mem hnm]
  have hP : (rlpPayload (sig :: beBytes r.seq ::
      (ks.map fun k => [k, (mapGet r.entries k).getD []]).flatten)).length < 256 ^ 8 := by
    have h1 : (rlpPayload (sig :: beBytes r.seq ::
        (ks.map fun k => [k, (mapGet r.entries k).getD []]).flatten)).length
        ≤ (rlpEncodeStrList (sig :: r.content)).length := by
      rw [hcontent]
      exact payload_length_le_rlpEncodeStrList _
    have h2 : (300 : Nat) < 256 ^ 8 := by norm_num
    have h3 : (rlpEncodeStrList (sig :: r.content)).length < MAX_RECORD_SIZE := hsize
    simp only [MAX_RECORD_SIZE] at h3
    omega
  have hver : ENR.verifySig
      ⟨ks.map fun k => (k, (mapGet r.entries k).getD []), beVal (beBytes r.seq), some sig⟩
      (rlpEncodeStrList (beBytes r.seq ::
        (ks.map fun k => [k, (mapGet r.entries k).getD []]).flatten)) sig
      = .ok true := by
    simp only [ENR.verifySig, ENR.idTag, hsame, hid, hpk, if_true]
    rw [← hcontent]
    simp [v4.verify, v4.publicKeyOf, hsig]
  have hdec := ENR.decode_wellformed sig (beBytes r.seq) ks
    (fun k => (mapGet r.entries k).getD []) (nodup_sortKeys hnodup) hP hver
  rw [← hcontent, henc1] at hdec
  refine ⟨⟨ks.map fun k => (k, (mapGet r.entries k).getD []),
    beVal (beBytes r.seq), some sig⟩, hdec, ?_, ?_, ?_, ?_⟩
  · intro k
    rw [henc2]
    exact hsame k
  · rw [henc2, beVal_beBytes]
  · rw [henc2]
  · have e1 : ENR.nodeIdOf ⟨ks.map fun k => (k, (mapGet r.entries k).getD []),
        beVal (beBytes r.seq), some sig⟩ = .ok (v4.nodeId (v4.publicKeyOf priv)) := by
      apply ENR.nodeIdOf_eq
      · show mapGet (ks.map fun k => (k, (mapGet r.entries k).getD [])) (strBytes "id") = _
        rw [hsame]
        exact hid
      · show mapGet (ks.map fun k => (k, (mapGet r.entries k).getD []))
          (strBytes "secp256k1") = _
        rw [hsame]
        exact hpk
    have e2 : ENR.nodeIdOf r1 = .ok (v4.nodeId (v4.publicKeyOf priv)) := by
      apply ENR.nodeIdOf_eq
      · rw [henc2]
        exact hid
      · rw [henc2]
        exact hpk
    rw [e1, e2]

/-! ## Witnesses -/

/-- Witness for C6 at a concrete small signed record. -/
theorem enr_encode_size_bound_witness :
    (rlpEncodeStrList ([9, 9] :: signedENR.content)).length < MAX_RECORD_SIZE ∧
    (signedENR.encode none).1 = .ok (rlpEncodeStrList ([9, 9] :: signedENR.content)) :=
  ⟨by decide, (enr_encode_size_bound signedENR [9, 9] rfl).2 (by decide)⟩

/-- Witness for C7 at a concrete v4 record. -/
theorem enr_encode_sign_preserves_seq_witness :
    ((exampleENR.encode (some [1])).2).seq = exampleENR.seq ∧
    ((exampleENR.encode (some [1])).2).signature
      = some (v4.sign [1] (rlpEncodeStrList exampleENR.content)) :=
  ⟨(enr_encode_sign_preserves_seq exampleENR [1]).1,
   (enr_encode_sign_preserves_seq exampleENR [1]).2 (by rfl)⟩

set_option maxRecDepth 100000 in
/-- Witness for C8 at a record whose signed encoding exceeds 300 bytes. -/
theorem enr_encode_size_failure_keeps_new_signature_witness :
    (oversizedENR.encode (some [1])).1 = .error "ENR must be less than 300 bytes" ∧
    (oversizedENR.encode (some [1])).2.signature
      = some (v4.sign [1] (rlpEncodeStrList oversizedENR.content)) ∧
    (oversizedENR.encode (some [1])).2 ≠ oversizedENR := by
  have h := enr_encode_size_failure_keeps_new_signature oversizedENR [1] (by rfl) (by decide)
  exact ⟨h.1, h.2.1, h.2.2 rfl⟩

/-- Witness for C5 at the concrete encoding of `exampleENR`. -/
theorem enr_decode_returns_only_verified_witness :
    ∃ sig rest, rlpDecode exampleEncoded = .ok (.list ((sig :: rest).map RLPVal.str)) ∧
      exampleDecoded.signature = some sig ∧
      exampleDecoded.verifySig (rlpEncodeStrList rest) sig = .ok true :=
  enr_decode_returns_only_verified exampleEncoded exampleDecoded (by rfl)

/-- Witness for C3 at the concrete record `exampleENR` with private key [1]. -/
theorem enr_encode_decode_roundtrip_witness :
    ∃ r' : ENR, ENR.decode exampleEncoded = .ok r' ∧
      (∀ k, mapGet r'.entries k
        = mapGet ((ENR.encode exampleENR (some [1])).2).entries k) ∧
      r'.seq = ((ENR.encode exampleENR (some [1])).2).seq ∧
      r'.signature = ((ENR.encode exampleENR (some [1])).2).signature ∧
      r'.nodeIdOf = ((ENR.encode exampleENR (some [1])).2).nodeIdOf :=
  enr_encode_decode_roundtrip exampleENR ((ENR.encode exampleENR (some [1])).2) [1]
    exampleEncoded (by decide) (by rfl) (by rfl) (by decide) (by rfl)

/-- Witness for C10 at a record populated with both endpoint families. -/
theorem enr_endpoint_getters_prefer_ipv4_witness :
    dualStackENR.multiaddrUDP = .ok (some ⟨4, [192, 0, 2, 1], "udp", 118 * 256 + 95⟩) ∧
    dualStackENR.multiaddrTCP = .ok (some ⟨4, [192, 0, 2, 1], "tcp", 118 * 256 + 96⟩) :=
  enr_endpoint_getters_prefer_ipv4 dualStackENR [192, 0, 2, 1] (List.replicate 16 1)
    [200, 0] [200, 1] 118 95 118 96 [] [] rfl rfl rfl rfl rfl rfl

end Discv5
